import Mathlib

/-!
Shallow embedding of `gcode-pp.py` (Tynik/g-code-post-processor).

The program post-processes G-code text: it scans the source for a
`;LAYER_COUNT:<N>` sentinel, validates a list of rules `{layer, code}`
against that count, and rewrites the source line by line, replacing the
first occurrence of the marker string `;LAYER:<layer>\n` in a line by the
marker followed by the rule's code and a newline.  A watcher thread polls
the source file's modification time and re-runs the compilation for all
registered rule identifiers.

Documents are modelled as `String`s, lines as `List Char` chunks produced
by the same splitting Python's text-stream iteration performs (split after
each newline, trailing chunk kept when nonempty).  The file system is a
partial map from filenames to contents; the YAML rules loader is an
external collaborator modelled as a partial map from filenames to parsed
rule lists.
-/

set_option autoImplicit false

namespace GPP

/-! ### Basic list-of-characters machinery -/

/-- `isPrefOf a b` decides whether `a` is a prefix of `b`. -/
def isPrefOf : List Char → List Char → Bool
  | [], _ => true
  | _ :: _, [] => false
  | a :: as, b :: bs => a = b && isPrefOf as bs

/-- `containsSeq old s` decides whether `old` occurs as a contiguous
subsequence of `s`; this is Python's substring containment used by
`str.index` / `str.replace`. -/
def containsSeq : List Char → List Char → Bool
  | old, [] => isPrefOf old []
  | old, b :: bs => isPrefOf old (b :: bs) || containsSeq old bs

/-- `replaceOnceL old new s` is Python's `s.replace(old, new, 1)`: the
first occurrence of `old` in `s` is replaced by `new`; when `old` does not
occur, `s` is returned unchanged. -/
def replaceOnceL (old new : List Char) : List Char → List Char
  | [] => if isPrefOf old [] then new else []
  | b :: bs =>
      if isPrefOf old (b :: bs) then new ++ (b :: bs).drop old.length
      else b :: replaceOnceL old new bs

/-- Split a character stream into lines the way Python's text-stream
iteration does: each line keeps its trailing newline; a final chunk
without a newline is produced when nonempty.  `acc` holds the (reversed)
characters of the line being accumulated. -/
def splitAux : List Char → List Char → List (List Char)
  | [], acc => if acc.isEmpty then [] else [acc.reverse]
  | c :: cs, acc =>
      if c = '\n' then (acc.reverse ++ ['\n']) :: splitAux cs []
      else splitAux cs (c :: acc)

/-- The lines of a character stream (Python `for line in stream`). -/
def splitLinesL (cs : List Char) : List (List Char) := splitAux cs []

/-- Concatenation of chunks back into a stream. -/
def joinL : List (List Char) → List Char
  | [] => []
  | l :: ls => l ++ joinL ls

/-! ### Python scalar helpers -/

/-- Decimal digit character, `chr(48 + d)`. -/
def digitCh (d : Nat) : Char := Char.ofNat (48 + d)

/-- Decimal digits of `n`, most significant first; `f` is fuel (structural
recursion so that the kernel can evaluate it). -/
def natDigitsCore : Nat → Nat → List Char
  | 0, _ => []
  | f + 1, n =>
      if n < 10 then [digitCh n]
      else natDigitsCore f (n / 10) ++ [digitCh (n % 10)]

/-- Decimal digits of `n`, most significant first. -/
def natDigits (n : Nat) : List Char := natDigitsCore (n + 1) n

/-- Python's `str` on an `int`: optional minus sign followed by decimal
digits. -/
def pyIntStr (i : Int) : String :=
  if i < 0 then "-" ++ String.mk (natDigits i.natAbs)
  else String.mk (natDigits i.natAbs)

/-- Python whitespace stripped by `int(...)`. -/
def isPySpace (c : Char) : Bool :=
  c = ' ' || c = '\t' || c = '\n' || c = '\r' || c = '\x0b' || c = '\x0c'

/-- Python's `str.strip()`. -/
def pyStrip (l : List Char) : List Char :=
  ((l.dropWhile isPySpace).reverse.dropWhile isPySpace).reverse

/-- Numeric value of a digit string, most significant first. -/
def digitsToNat (ds : List Char) : Nat :=
  ds.foldl (fun a c => a * 10 + (c.toNat - 48)) 0

/-- Parse an already-stripped character sequence as a Python integer
literal: optional sign followed by decimal digits. -/
def pyIntCore : List Char → Option Int
  | [] => none
  | c :: ds =>
      if c = '-' then
        if ds.isEmpty then none
        else if ds.all Char.isDigit then some (-(digitsToNat ds : Int)) else none
      else if c = '+' then
        if ds.isEmpty then none
        else if ds.all Char.isDigit then some ((digitsToNat ds : Int)) else none
      else if (c :: ds).all Char.isDigit then some ((digitsToNat (c :: ds) : Int))
      else none

/-- Python's `int(s)`: strip whitespace, optional sign, decimal digits;
`none` models the `ValueError` raised on anything else. -/
def pyInt (l : List Char) : Option Int := pyIntCore (pyStrip l)

/-- Python's `str.split(sep)` for a one-character separator `':'`. -/
def pyColonSplit : List Char → List (List Char)
  | [] => [[]]
  | c :: cs =>
      if c = ':' then [] :: pyColonSplit cs
      else
        match pyColonSplit cs with
        | [] => [[c]]
        | h :: t => (c :: h) :: t

/-! ### SourceCode: the layer-count scan (`SourceCode.__init__`) -/

/-- The sentinel substring searched for by `code_line.index(';LAYER_COUNT:')`. -/
def sentinelHeader : List Char := (";LAYER_COUNT:").data

/-- One step of the layer-count scan: if the line contains the sentinel
substring, try `int(line.split(':')[1])` and keep the parsed value; on any
failure (`except: pass`) keep the current value. -/
def SourceCode.scanStep (cur : Option Int) (l : List Char) : Option Int :=
  if containsSeq sentinelHeader l then
    match pyInt ((pyColonSplit l).getD 1 []) with
    | some n => some n
    | none => cur
  else cur

/-- `SourceCode.count_layers`: one full pass over the lines, last
successful parse wins, `none` when no line ever parses. -/
def SourceCode.countLayers (src : String) : Option Int :=
  (splitLinesL src.data).foldl SourceCode.scanStep none

/-! ### Rules and validation -/

/-- A parsed YAML rule: `{'layer': int, 'code': str}`. -/
structure Rule where
  layer : Int
  code : String
deriving DecidableEq, Repr

/-- The error conditions `GCodePP.compile` can raise: Python's
`FileNotFoundError` on the source open, the `NameError` produced for a
missing rules file, the `ValueError` produced for an out-of-range layer,
and the `TypeError` a comparison against an unset layer count raises. -/
inductive Err where
  | fileNotFound : Err
  | rulesNotFound : String → Err
  | layerOutOfRange : String → Err
  | typeErrorUnsetCount : Err
deriving DecidableEq, Repr

/-- The derived rules filename, `'rules[' + rule_id + '].yml'`. -/
def ruleFilename (ruleId : String) : String := "rules[" ++ ruleId ++ "].yml"

/-- The message of the `NameError` raised when the rules file is missing. -/
def rulesNotFoundMsg (ruleId : String) : String :=
  "Rules with a filename \"" ++ ruleFilename ruleId ++ "\" cannot be find"

/-- The message of the `ValueError` raised for an out-of-range layer. -/
def layerOutOfRangeMsg (layer : Int) : String :=
  "The layer number [" ++ pyIntStr layer ++ "] cannot be more than count layers"

/-- The validation loop `for rule in rules: if rule['layer'] >= count: raise`.
With an unset count, the first comparison raises a `TypeError`; an empty
rule list performs no comparison at all. -/
def validateRules : List Rule → Option Int → Except Err Unit
  | [], _ => Except.ok ()
  | _ :: _, none => Except.error Err.typeErrorUnsetCount
  | r :: rs, some c =>
      if r.layer ≥ c then Except.error (Err.layerOutOfRange (layerOutOfRangeMsg r.layer))
      else validateRules rs (some c)

/-! ### The layer injector (`GCodePP.compile` write loop) -/

/-- The marker string `';LAYER:' + str(rule['layer']) + '\n'`. -/
def layerComment (r : Rule) : String := ";LAYER:" ++ pyIntStr r.layer ++ "\n"

/-- One rule applied to one line:
`code_line.replace(marker, marker + rule['code'] + '\n', 1)`. -/
def applyRuleL (l : List Char) (r : Rule) : List Char :=
  replaceOnceL (layerComment r).data (layerComment r ++ r.code ++ "\n").data l

/-- The inner `for rule in rules` loop over one line. -/
def processLineL (rules : List Rule) (l : List Char) : List Char :=
  rules.foldl applyRuleL l

/-- The full rewrite: every source line processed in order and written to
the output. -/
def compileOutput (src : String) (rules : List Rule) : String :=
  String.mk (joinL ((splitLinesL src.data).map (processLineL rules)))

/-! ### The file system and `GCodePP.compile` -/

/-- A file system: filenames to text contents. -/
abbrev FS := String → Option String

/-- Writing a file (`open(name, 'w+')` plus the writes). -/
def FS.update (fs : FS) (name content : String) : FS :=
  fun n => if n = name then some content else fs n

/-- `os.path.splitext(p)[0]` for a plain filename (no directory
separators): everything before the last dot, unless the characters before
that dot are all dots, in which case the name is returned whole. -/
def splitextStem (name : String) : String :=
  match (name.data.reverse.findIdx? (fun c => c = '.')).map
      (fun i => name.data.length - 1 - i) with
  | none => name
  | some i =>
      if (name.data.take i).any (fun c => !(c = '.' : Bool)) then
        String.mk (name.data.take i)
      else name

/-- The output filename: resolved output base (explicit, or the source
filename with its extension stripped) followed by `[ruleId].gcode`. -/
def outputName (codeFilename : String) (outBase : Option String) (ruleId : String) : String :=
  (match outBase with
   | some b => b
   | none => splitextStem codeFilename) ++ "[" ++ ruleId ++ "]" ++ ".gcode"

/-- Loading the rules file: `load(open(fn), Loader)` with the
`FileNotFoundError` converted to a `NameError` naming the rules file. -/
def loadRules (rulesOf : String → Option (List Rule)) (ruleId : String) :
    Except Err (List Rule) :=
  match rulesOf (ruleFilename ruleId) with
  | none => Except.error (Err.rulesNotFound (rulesNotFoundMsg ruleId))
  | some rs => Except.ok rs

/-- Result of one `compile` call: the outcome, the file system afterwards,
and whether the source stream is still open when control returns (the
`finally` block closes it on every path on which it was opened). -/
structure CompileResult where
  outcome : Except Err Unit
  fs : FS
  sourceOpenAtEnd : Bool

/-- The body of `GCodePP.compile` once the source is open: load the rules,
validate every layer against the scanned count, then write the rewritten
document to the output file.  No write happens on any error path. -/
def compileBody (fs : FS) (rulesOf : String → Option (List Rule)) (src : String)
    (outName : String) (ruleId : String) : Except Err FS :=
  match loadRules rulesOf ruleId with
  | Except.error e => Except.error e
  | Except.ok rules =>
      match validateRules rules (SourceCode.countLayers src) with
      | Except.error e => Except.error e
      | Except.ok _ => Except.ok (fs.update outName (compileOutput src rules))

/-- `GCodePP.compile`: open the source (propagating a not-found error with
nothing acquired), run the body, and close the source in the `finally`
block on both the success and the error path. -/
def GCodePP.compile (fs : FS) (rulesOf : String → Option (List Rule))
    (codeFilename : String) (outBase : Option String) (ruleId : String) : CompileResult :=
  match fs codeFilename with
  | none => ⟨Except.error Err.fileNotFound, fs, false⟩
  | some src =>
      match compileBody fs rulesOf src (outputName codeFilename outBase ruleId) ruleId with
      | Except.error e => ⟨Except.error e, fs, false⟩
      | Except.ok fs' => ⟨Except.ok (), fs', false⟩

/-! ### The watcher (`Watcher.run`, `Watcher.stop`, rule registration) -/

/-- Rule registration in `compile` (lines 96-99): append the identifier
unless it is already present, so the list keeps first-seen order. -/
def registerRule (ids : List String) (ruleId : String) : List String :=
  if ruleId ∈ ids then ids else ids ++ [ruleId]

/-- One poll of `Watcher.run` (lines 58-64): given the recorded baseline
and the observed modification time, return the new baseline and the list
of rule identifiers for which the recompilation callback is invoked, in
order. -/
def Watcher.step (started : Option Nat) (m : Nat) (ids : List String) :
    Option Nat × List String :=
  match started with
  | none => (some m, [])
  | some b => if b < m then (some m, ids) else (some b, [])

/-- The polling loop over a finite schedule of observations.  Each
observation is the stop flag as read at the top of the iteration paired
with the observed modification time; the flag being set breaks the loop
before anything else happens.  The result is the concatenated list of
callback invocations. -/
def Watcher.run (ids : List String) : Option Nat → List (Bool × Nat) → List String
  | _, [] => []
  | st, (stopped, m) :: rest =>
      if stopped then []
      else (Watcher.step st m ids).2 ++ Watcher.run ids (Watcher.step st m ids).1 rest

/-! ### Claim-side observables

Bookkeeping functions used to state the claims: the number of injected
newlines a line accrues during processing, trailing-chunk detection, line
counts, and the spec's notion of a well-formed `;LAYER_COUNT:<N>` sentinel
line. -/

/-- Number of newline characters injected while the rules fold over one
line: every rule whose marker occurs in the current version of the line
contributes its code's newlines plus the one appended newline. -/
def injectedNL : List Rule → List Char → Nat
  | [], _ => 0
  | r :: rs, l =>
      (if containsSeq (layerComment r).data l then r.code.data.count '\n' + 1 else 0)
      + injectedNL rs (applyRuleL l r)

/-- Whether a stream ends in a partial line (nonempty and not
newline-terminated). -/
def hasTrail : List Char → Bool
  | [] => false
  | [c] => if c = '\n' then false else true
  | _ :: c :: cs => hasTrail (c :: cs)

/-- The number of lines of a document, under the same splitting the
program performs. -/
def lineCount (s : String) : Nat := (splitLinesL s.data).length

/-- The bytes of the marker string for layer `L`. -/
def markerL (L : Int) : List Char := (";LAYER:" ++ pyIntStr L ++ "\n").data

/-- `remAfter a l` is `some r` exactly when `l = a ++ r`. -/
def remAfter : List Char → List Char → Option (List Char)
  | [], l => some l
  | _ :: _, [] => none
  | c :: cs, d :: ds => if c = d then remAfter cs ds else none

/-- Value of a nonempty all-digit string, `none` otherwise. -/
def sentinelDigitsValue (ds : List Char) : Option Int :=
  if ds.isEmpty then none
  else if ds.all Char.isDigit then some ((digitsToNat ds : Int)) else none

/-- Formalisation of the spec's sentinel-line form: the claim speaks of a
line matching `;LAYER_COUNT:<N>`, i.e. the sentinel text followed by the
decimal digits of `N` and nothing else (up to the line's trailing
newline).  Returns the value `N` for such a line and `none` otherwise. -/
def sentinelFormValue (l : List Char) : Option Int :=
  match remAfter sentinelHeader l with
  | none => none
  | some r => sentinelDigitsValue (if r.getLast? = some '\n' then r.dropLast else r)

/-- The spec's collection step: a sentinel-form line overwrites the
current value, any other line leaves it alone (last occurrence wins). -/
def specStep (cur : Option Int) (l : List Char) : Option Int :=
  match sentinelFormValue l with
  | some n => some n
  | none => cur

/-- The spec's declared layer count: the value of the last sentinel-form
line, `none` when no line matches. -/
def specDeclaredCount (src : String) : Option Int :=
  (splitLinesL src.data).foldl specStep none

/-! ### Lemmas: prefixes, containment and single replacement -/

theorem isPrefOf_append_self (a t : List Char) : isPrefOf a (a ++ t) = true := by
  induction a with
  | nil => rfl
  | cons c cs ih => simp [isPrefOf, ih]

theorem isPrefOf_self (a : List Char) : isPrefOf a a = true := by
  simpa using isPrefOf_append_self a []

theorem isPrefOf_eq_exists {a b : List Char} (h : isPrefOf a b = true) :
    ∃ t, b = a ++ t := by
  induction a generalizing b with
  | nil => exact ⟨b, rfl⟩
  | cons c cs ih =>
    cases b with
    | nil => simp [isPrefOf] at h
    | cons d ds =>
      rw [isPrefOf, Bool.and_eq_true, decide_eq_true_eq] at h
      obtain ⟨rfl, h2⟩ := h
      obtain ⟨t, rfl⟩ := ih h2
      exact ⟨t, rfl⟩

theorem containsSeq_of_isPrefOf {a b : List Char} (h : isPrefOf a b = true) :
    containsSeq a b = true := by
  cases b with
  | nil => simpa [containsSeq] using h
  | cons d ds => simp [containsSeq, h]

theorem containsSeq_eq_exists {a b : List Char} (h : containsSeq a b = true) :
    ∃ p q, b = p ++ a ++ q := by
  induction b with
  | nil =>
    cases a with
    | nil => exact ⟨[], [], rfl⟩
    | cons c cs => simp [containsSeq, isPrefOf] at h
  | cons d ds ih =>
    rw [containsSeq, Bool.or_eq_true] at h
    rcases h with h | h
    · obtain ⟨t, ht⟩ := isPrefOf_eq_exists h
      exact ⟨[], t, by simp [ht]⟩
    · obtain ⟨p, q, rfl⟩ := ih h
      exact ⟨d :: p, q, rfl⟩

theorem mem_of_containsSeq {a b : List Char} (h : containsSeq a b = true)
    {c : Char} (hc : c ∈ a) : c ∈ b := by
  obtain ⟨p, q, rfl⟩ := containsSeq_eq_exists h
  simp [hc]

theorem replaceOnceL_of_not_contains {old s : List Char} (new : List Char)
    (h : containsSeq old s = false) : replaceOnceL old new s = s := by
  induction s with
  | nil =>
    rw [containsSeq] at h
    simp [replaceOnceL, h]
  | cons b bs ih =>
    rw [containsSeq, Bool.or_eq_false_iff] at h
    simp [replaceOnceL, h.1, ih h.2]

theorem replaceOnceL_of_isPrefOf {old s : List Char} (new : List Char)
    (h : isPrefOf old s = true) :
    replaceOnceL old new s = new ++ s.drop old.length := by
  cases s with
  | nil =>
    cases old with
    | nil => simp [replaceOnceL, isPrefOf]
    | cons c cs => simp [isPrefOf] at h
  | cons b bs => simp [replaceOnceL, h]

theorem count_replaceOnceL {old s : List Char} (new : List Char)
    (h : containsSeq old s = true) :
    (replaceOnceL old new s).count '\n' + old.count '\n'
      = s.count '\n' + new.count '\n' := by
  induction s with
  | nil =>
    have ho : old = [] := by
      cases old with
      | nil => rfl
      | cons c cs => simp [containsSeq, isPrefOf] at h
    subst ho
    simp [replaceOnceL, isPrefOf]
  | cons b bs ih =>
    by_cases hp : isPrefOf old (b :: bs) = true
    · rw [replaceOnceL_of_isPrefOf new hp]
      obtain ⟨t, ht⟩ := isPrefOf_eq_exists hp
      rw [ht, List.drop_left]
      simp only [List.count_append]
      omega
    · rw [containsSeq, Bool.or_eq_true] at h
      rcases h with h | h
      · exact absurd h hp
      · rw [replaceOnceL, if_neg (by simp [hp])]
        have := ih h
        by_cases hb : b = '\n' <;> simp [List.count_cons, hb] <;> omega

/-! ### Lemmas: line splitting, joining, trailing chunks -/

theorem joinL_append (A B : List (List Char)) : joinL (A ++ B) = joinL A ++ joinL B := by
  induction A with
  | nil => rfl
  | cons l ls ih => simp [joinL, ih]

theorem count_joinL (a : Char) (L : List (List Char)) :
    (joinL L).count a = (L.map (fun l => l.count a)).sum := by
  induction L with
  | nil => rfl
  | cons l ls ih => simp [joinL, List.count_append, ih]

theorem joinL_splitAux (cs : List Char) :
    ∀ acc, joinL (splitAux cs acc) = acc.reverse ++ cs := by
  induction cs with
  | nil =>
    intro acc
    by_cases h : acc.isEmpty
    · rw [List.isEmpty_iff] at h
      simp [splitAux, h, joinL]
    · simp [splitAux, h, joinL]
  | cons c cs ih =>
    intro acc
    by_cases h : c = '\n'
    · subst h
      simp [splitAux, joinL, ih []]
    · simp [splitAux, h, ih (c :: acc)]

theorem joinL_splitLinesL (cs : List Char) : joinL (splitLinesL cs) = cs := by
  simpa [splitLinesL] using joinL_splitAux cs []

theorem splitAux_chunk_shape {cs acc : List Char} (hacc : '\n' ∉ acc) :
    ∀ l ∈ splitAux cs acc,
      (∃ t, l = t ++ ['\n'] ∧ '\n' ∉ t) ∨ ('\n' ∉ l ∧ l ≠ []) := by
  induction cs generalizing acc with
  | nil =>
    intro l hl
    by_cases h : acc.isEmpty
    · simp [splitAux, h] at hl
    · rw [splitAux, if_neg (by simp [h])] at hl
      rw [List.mem_singleton] at hl
      subst hl
      refine Or.inr ⟨fun hm => hacc (List.mem_reverse.mp hm), ?_⟩
      simpa [List.isEmpty_iff] using h
  | cons c cs ih =>
    intro l hl
    by_cases h : c = '\n'
    · subst h
      rw [splitAux, if_pos rfl, List.mem_cons] at hl
      rcases hl with rfl | hl
      · exact Or.inl ⟨acc.reverse, rfl, fun hm => hacc (List.mem_reverse.mp hm)⟩
      · exact ih (by simp) l hl
    · rw [splitAux, if_neg h] at hl
      refine ih ?_ l hl
      intro hm
      rcases List.mem_cons.mp hm with hm | hm
      · exact h hm.symm
      · exact hacc hm

theorem hasTrail_append (a : List Char) {b : List Char} (hb : b ≠ []) :
    hasTrail (a ++ b) = hasTrail b := by
  induction a with
  | nil => rfl
  | cons x xs ih =>
    cases xs with
    | nil =>
      cases b with
      | nil => exact absurd rfl hb
      | cons y ys => rfl
    | cons x' xs' => exact ih

theorem hasTrail_concat_newline (a : List Char) : hasTrail (a ++ ['\n']) = false := by
  rw [hasTrail_append a (by simp)]
  rfl

theorem splitAux_length {cs acc : List Char} (hacc : '\n' ∉ acc) :
    (splitAux cs acc).length
      = cs.count '\n' + (if hasTrail (acc.reverse ++ cs) then 1 else 0) := by
  induction cs generalizing acc with
  | nil =>
    by_cases h : acc.isEmpty
    · rw [List.isEmpty_iff] at h
      simp [splitAux, h, hasTrail]
    · rw [splitAux, if_neg (by simp [h])]
      have hne : acc ≠ [] := by simpa [List.isEmpty_iff] using h
      obtain ⟨a, as, rfl⟩ : ∃ a as, acc = a :: as := by
        cases acc with
        | nil => exact absurd rfl hne
        | cons a as => exact ⟨a, as, rfl⟩
      have h1 : hasTrail ((a :: as).reverse ++ []) = true := by
        rw [List.append_nil, List.reverse_cons, hasTrail_append as.reverse (by simp)]
        have : a ≠ '\n' := fun hh => hacc (hh ▸ List.mem_cons_self a as)
        simp [hasTrail, this]
      rw [h1]
      rfl
  | cons c cs ih =>
    by_cases h : c = '\n'
    · subst h
      rw [splitAux, if_pos rfl]
      have hlen := @ih [] (by simp)
      simp only [List.reverse_nil, List.nil_append] at hlen
      have hsplit : hasTrail (acc.reverse ++ '\n' :: cs) = hasTrail cs := by
        have : acc.reverse ++ '\n' :: cs = (acc.reverse ++ ['\n']) ++ cs := by simp
        rw [this]
        cases cs with
        | nil => rw [List.append_nil, hasTrail_concat_newline]; rfl
        | cons y ys => rw [hasTrail_append _ (by simp)]
      rw [List.length_cons, hlen, hsplit, List.count_cons]
      simp
      omega
    · rw [splitAux, if_neg h]
      have hacc' : '\n' ∉ c :: acc := by
        intro hm
        rcases List.mem_cons.mp hm with hm | hm
        · exact h hm.symm
        · exact hacc hm
      rw [ih hacc']
      have : (c :: acc).reverse ++ cs = acc.reverse ++ c :: cs := by simp
      rw [this, List.count_cons]
      simp [h]

theorem lineCount_eq (s : String) :
    lineCount s = s.data.count '\n' + (if hasTrail s.data then 1 else 0) := by
  simpa [lineCount, splitLinesL] using @splitAux_length s.data [] (by simp)

/-! ### Lemmas: integer rendering and the marker string -/

theorem digitCh_ne_newline {d : Nat} (h : d < 10) : digitCh d ≠ '\n' := by
  interval_cases d <;> decide

theorem newline_not_mem_natDigitsCore (f : Nat) : ∀ n, '\n' ∉ natDigitsCore f n := by
  induction f with
  | zero => intro n; simp [natDigitsCore]
  | succ f ih =>
    intro n
    rw [natDigitsCore]
    by_cases h : n < 10
    · rw [if_pos h]
      simp [List.mem_singleton]
      exact fun hh => digitCh_ne_newline h hh.symm
    · rw [if_neg h]
      intro hm
      rcases List.mem_append.mp hm with hm | hm
      · exact ih (n / 10) hm
      · rw [List.mem_singleton] at hm
        exact digitCh_ne_newline (Nat.mod_lt _ (by norm_num)) hm.symm

theorem newline_not_mem_pyIntStr (i : Int) : '\n' ∉ (pyIntStr i).data := by
  unfold pyIntStr
  by_cases h : i < 0
  · rw [if_pos h, String.data_append]
    intro hm
    rcases List.mem_append.mp hm with hm | hm
    · simp at hm
    · exact newline_not_mem_natDigitsCore _ _ hm
  · rw [if_neg h]
    exact newline_not_mem_natDigitsCore _ _

theorem data_layerComment (r : Rule) :
    (layerComment r).data = (";LAYER:" ++ pyIntStr r.layer).data ++ ['\n'] := by
  rw [layerComment, String.data_append]

theorem count_layerComment (r : Rule) : (layerComment r).data.count '\n' = 1 := by
  rw [layerComment, String.data_append, String.data_append, List.count_append,
    List.count_append]
  have h1 : (";LAYER:").data.count '\n' = 0 := by decide
  have h2 : (pyIntStr r.layer).data.count '\n' = 0 :=
    List.count_eq_zero.mpr (newline_not_mem_pyIntStr r.layer)
  rw [h1, h2]
  rfl

theorem newline_mem_layerComment (r : Rule) : '\n' ∈ (layerComment r).data := by
  rw [data_layerComment]
  simp

theorem data_newSegment (r : Rule) :
    (layerComment r ++ r.code ++ "\n").data
      = (layerComment r).data ++ r.code.data ++ ['\n'] := by
  rw [String.data_append, String.data_append]

theorem count_newSegment (r : Rule) :
    ((layerComment r ++ r.code ++ "\n").data).count '\n'
      = r.code.data.count '\n' + 2 := by
  rw [data_newSegment, List.count_append, List.count_append, count_layerComment]
  simp [List.count_cons]
  omega

/-! ### Lemmas: per-line processing -/

theorem applyRuleL_of_not_contains {l : List Char} {r : Rule}
    (h : containsSeq (layerComment r).data l = false) : applyRuleL l r = l :=
  replaceOnceL_of_not_contains _ h

theorem applyRuleL_of_no_newline {l : List Char} (h : '\n' ∉ l) (r : Rule) :
    applyRuleL l r = l := by
  apply applyRuleL_of_not_contains
  cases hc : containsSeq (layerComment r).data l with
  | false => rfl
  | true => exact absurd (mem_of_containsSeq hc (newline_mem_layerComment r)) h

theorem processLineL_of_no_newline {l : List Char} (h : '\n' ∉ l) (rules : List Rule) :
    processLineL rules l = l := by
  induction rules with
  | nil => rfl
  | cons r rs ih =>
    show processLineL rs (applyRuleL l r) = l
    rw [applyRuleL_of_no_newline h r, ih]

theorem count_applyRuleL (l : List Char) (r : Rule) :
    (applyRuleL l r).count '\n'
      = l.count '\n'
        + (if containsSeq (layerComment r).data l then r.code.data.count '\n' + 1 else 0) := by
  cases hc : containsSeq (layerComment r).data l with
  | false => rw [applyRuleL_of_not_contains hc]; simp
  | true =>
    have h1 := count_replaceOnceL ((layerComment r ++ r.code ++ "\n").data) hc
    rw [count_layerComment, count_newSegment] at h1
    rw [if_pos rfl]
    rw [applyRuleL]
    omega

theorem count_processLineL (rules : List Rule) (l : List Char) :
    (processLineL rules l).count '\n' = l.count '\n' + injectedNL rules l := by
  induction rules generalizing l with
  | nil => simp [processLineL, injectedNL]
  | cons r rs ih =>
    show (processLineL rs (applyRuleL l r)).count '\n' = _
    rw [ih, count_applyRuleL]
    rw [injectedNL]
    omega

theorem replaceOnceL_newline_terminated {old new s : List Char}
    (hs : ∃ t, s = t ++ ['\n']) (hn : ∃ u, new = u ++ ['\n']) :
    ∃ w, replaceOnceL old new s = w ++ ['\n'] := by
  induction s with
  | nil =>
    obtain ⟨t, ht⟩ := hs
    exact absurd ht.symm (by simp)
  | cons b bs ih =>
    by_cases hp : isPrefOf old (b :: bs) = true
    · rw [replaceOnceL_of_isPrefOf new hp]
      obtain ⟨t2, ht2⟩ := isPrefOf_eq_exists hp
      rw [ht2, List.drop_left]
      rcases List.eq_nil_or_concat t2 with rfl | ⟨t2', c, rfl⟩
      · obtain ⟨u, hu⟩ := hn
        exact ⟨u, by simp [hu]⟩
      · obtain ⟨t, ht⟩ := hs
        have hc : c = '\n' := by
          have h1 : (old ++ t2') ++ [c] = t ++ ['\n'] := by
            rw [← ht, ht2]; simp
          exact (List.append_inj' h1 rfl).2 |> fun h2 => by
            simpa using congrArg (fun l => l.headI) h2
        subst hc
        exact ⟨new ++ t2', by simp⟩
    · have holdne : old ≠ [] := by
        intro hh
        subst hh
        simp [isPrefOf] at hp
      rw [replaceOnceL, if_neg (by simp [hp])]
      obtain ⟨t, ht⟩ := hs
      cases t with
      | nil =>
        have hb : b = '\n' ∧ bs = [] := by
          have := ht
          simp at this
          exact this
        obtain ⟨rfl, rfl⟩ := hb
        refine ⟨[], ?_⟩
        obtain ⟨c, cs, rfl⟩ : ∃ c cs, old = c :: cs := by
          cases old with
          | nil => exact absurd rfl holdne
          | cons c cs => exact ⟨c, cs, rfl⟩
        simp [replaceOnceL, isPrefOf]
      | cons x t' =>
        have hbs : b = x ∧ bs = t' ++ ['\n'] := by
          have := ht
          simp at this
          exact ⟨this.1, this.2⟩
        obtain ⟨rfl, hbs2⟩ := hbs
        obtain ⟨w, hw⟩ := ih ⟨t', hbs2⟩
        exact ⟨b :: w, by rw [hw]; rfl⟩

theorem applyRuleL_newline_terminated {l : List Char} (hs : ∃ t, l = t ++ ['\n'])
    (r : Rule) : ∃ w, applyRuleL l r = w ++ ['\n'] := by
  apply replaceOnceL_newline_terminated hs
  exact ⟨((layerComment r) ++ r.code).data, by rw [data_newSegment, String.data_append]⟩

theorem processLineL_newline_terminated {l : List Char} (hs : ∃ t, l = t ++ ['\n'])
    (rules : List Rule) : ∃ w, processLineL rules l = w ++ ['\n'] := by
  induction rules generalizing l with
  | nil => exact hs
  | cons r rs ih => exact ih (applyRuleL_newline_terminated hs r)

/-! ### Lemmas: the layer-count scan -/

theorem isPySpace_of_isDigit {c : Char} (h : Char.isDigit c = true) :
    isPySpace c = false := by
  by_contra hc
  rw [Bool.not_eq_false] at hc
  simp only [isPySpace, Bool.or_eq_true, decide_eq_true_eq] at hc
  rcases hc with ((((hc | hc) | hc) | hc) | hc) | hc <;>
    (subst hc; exact absurd h (by decide))

theorem ne_dash_of_isDigit {c : Char} (h : Char.isDigit c = true) : ¬(c = '-') := by
  intro hc; subst hc; exact absurd h (by decide)

theorem ne_plus_of_isDigit {c : Char} (h : Char.isDigit c = true) : ¬(c = '+') := by
  intro hc; subst hc; exact absurd h (by decide)

theorem ne_colon_of_isDigit {c : Char} (h : Char.isDigit c = true) : ¬(c = ':') := by
  intro hc; subst hc; exact absurd h (by decide)

theorem pyStrip_all_digits {ds : List Char} (h1 : ds ≠ [])
    (h2 : ∀ c ∈ ds, Char.isDigit c = true) : pyStrip ds = ds := by
  obtain ⟨c, cs, rfl⟩ : ∃ c cs, ds = c :: cs := by
    cases ds with
    | nil => exact absurd rfl h1
    | cons c cs => exact ⟨c, cs, rfl⟩
  rw [pyStrip, List.dropWhile_cons_of_neg
    (by rw [isPySpace_of_isDigit (h2 c (List.mem_cons_self c cs))]; simp)]
  rcases List.eq_nil_or_concat (c :: cs) with h | ⟨l2, d, hd⟩
  · simp at h
  · rw [List.concat_eq_append] at hd
    rw [hd, List.reverse_append]
    have hdd : isPySpace d = false :=
      isPySpace_of_isDigit (h2 d (by rw [hd]; simp))
    rw [List.reverse_singleton, List.singleton_append,
      List.dropWhile_cons_of_neg (by rw [hdd]; simp)]
    simp

theorem pyStrip_digits_newline {ds : List Char} (h1 : ds ≠ [])
    (h2 : ∀ c ∈ ds, Char.isDigit c = true) : pyStrip (ds ++ ['\n']) = ds := by
  obtain ⟨c, cs, rfl⟩ : ∃ c cs, ds = c :: cs := by
    cases ds with
    | nil => exact absurd rfl h1
    | cons c cs => exact ⟨c, cs, rfl⟩
  rw [pyStrip, List.cons_append, List.dropWhile_cons_of_neg
    (by rw [isPySpace_of_isDigit (h2 c (List.mem_cons_self c cs))]; simp)]
  rw [← List.cons_append, List.reverse_append, List.reverse_singleton,
    List.singleton_append, List.dropWhile_cons_of_pos (by simp [isPySpace])]
  rcases List.eq_nil_or_concat (c :: cs) with h | ⟨l2, d, hd⟩
  · simp at h
  · rw [List.concat_eq_append] at hd
    rw [hd, List.reverse_append]
    have hdd : isPySpace d = false :=
      isPySpace_of_isDigit (h2 d (by rw [hd]; simp))
    rw [List.reverse_singleton, List.singleton_append,
      List.dropWhile_cons_of_neg (by rw [hdd]; simp)]
    simp

theorem pyInt_all_digits {ds : List Char} (h1 : ds ≠ [])
    (h2 : ∀ c ∈ ds, Char.isDigit c = true) {r : List Char}
    (hr : r = ds ∨ r = ds ++ ['\n']) : pyInt r = some ((digitsToNat ds : Int)) := by
  have hstrip : pyStrip r = ds := by
    rcases hr with rfl | rfl
    · exact pyStrip_all_digits h1 h2
    · exact pyStrip_digits_newline h1 h2
  obtain ⟨c, cs, hds⟩ : ∃ c cs, ds = c :: cs := by
    cases ds with
    | nil => exact absurd rfl h1
    | cons c cs => exact ⟨c, cs, rfl⟩
  have hc : Char.isDigit c = true := h2 c (by rw [hds]; simp)
  rw [pyInt, hstrip, hds, pyIntCore]
  rw [if_neg (ne_dash_of_isDigit hc), if_neg (ne_plus_of_isDigit hc),
    if_pos (by rw [List.all_eq_true]; intro x hx; exact h2 x (by rw [hds]; exact hx))]

theorem pyColonSplit_no_colon {l : List Char} (h : ∀ c ∈ l, ¬(c = ':')) :
    pyColonSplit l = [l] := by
  induction l with
  | nil => rfl
  | cons c cs ih =>
    rw [pyColonSplit, if_neg (h c (List.mem_cons_self c cs)),
      ih (fun x hx => h x (List.mem_cons_of_mem c hx))]

theorem pyColonSplit_append {a : List Char} (b : List Char)
    (ha : ∀ c ∈ a, ¬(c = ':')) :
    pyColonSplit (a ++ ':' :: b) = a :: pyColonSplit b := by
  induction a with
  | nil => simp [pyColonSplit]
  | cons c cs ih =>
    rw [List.cons_append, pyColonSplit, if_neg (ha c (List.mem_cons_self c cs)),
      ih (fun x hx => ha x (List.mem_cons_of_mem c hx))]

theorem scanStep_sentinel {ds : List Char} (h1 : ds ≠ [])
    (h2 : ∀ c ∈ ds, Char.isDigit c = true) {r : List Char}
    (hr : r = ds ∨ r = ds ++ ['\n']) (cur : Option Int) :
    SourceCode.scanStep cur (sentinelHeader ++ r) = some ((digitsToNat ds : Int)) := by
  rw [SourceCode.scanStep,
    if_pos (containsSeq_of_isPrefOf (isPrefOf_append_self sentinelHeader r))]
  have hnc : ∀ c ∈ r, ¬(c = ':') := by
    intro c hc
    rcases hr with rfl | rfl
    · exact ne_colon_of_isDigit (h2 c hc)
    · rcases List.mem_append.mp hc with hc | hc
      · exact ne_colon_of_isDigit (h2 c hc)
      · rw [List.mem_singleton] at hc
        subst hc; decide
  have h0 : sentinelHeader = (";LAYER_COUNT").data ++ [':'] := by decide
  have hsh : sentinelHeader ++ r = (";LAYER_COUNT").data ++ ':' :: r := by
    rw [h0, List.append_assoc, List.singleton_append]
  rw [hsh, pyColonSplit_append r (by decide), pyColonSplit_no_colon hnc]
  rw [show ((";LAYER_COUNT").data :: [r]).getD 1 [] = r from rfl]
  rw [pyInt_all_digits h1 h2 hr]

theorem remAfter_eq_some {a : List Char} :
    ∀ {l r : List Char}, remAfter a l = some r ↔ l = a ++ r := by
  induction a with
  | nil =>
    intro l r
    simp [remAfter]
  | cons c cs ih =>
    intro l r
    cases l with
    | nil => simp [remAfter]
    | cons d ds =>
      rw [remAfter]
      by_cases h : c = d
      · subst h
        simp [ih]
      · simp only [if_neg h]
        constructor
        · intro hh; exact absurd hh (by simp)
        · intro hh
          rw [List.cons_append] at hh
          injection hh with hh1 hh2
          exact absurd hh1.symm h

theorem sentinelDigitsValue_eq_some {ds : List Char} {n : Int}
    (h : sentinelDigitsValue ds = some n) :
    ds ≠ [] ∧ (∀ c ∈ ds, Char.isDigit c = true) ∧ n = (digitsToNat ds : Int) := by
  rw [sentinelDigitsValue] at h
  by_cases he : ds.isEmpty
  · rw [if_pos he] at h
    exact absurd h (by simp)
  · rw [if_neg he] at h
    by_cases hall : ds.all Char.isDigit
    · rw [if_pos hall] at h
      refine ⟨by simpa [List.isEmpty_iff] using he, ?_, by simpa using h.symm⟩
      rw [List.all_eq_true] at hall
      exact hall
    · rw [if_neg hall] at h
      exact absurd h (by simp)

theorem sentinelFormValue_eq_some {l : List Char} {n : Int}
    (h : sentinelFormValue l = some n) :
    ∃ ds, ds ≠ [] ∧ (∀ c ∈ ds, Char.isDigit c = true) ∧ n = (digitsToNat ds : Int)
      ∧ (l = sentinelHeader ++ ds ∨ l = sentinelHeader ++ (ds ++ ['\n'])) := by
  rw [sentinelFormValue] at h
  cases hrem : remAfter sentinelHeader l with
  | none => rw [hrem] at h; exact absurd h (by simp)
  | some r =>
    simp only [hrem] at h
    have hl : l = sentinelHeader ++ r := remAfter_eq_some.mp hrem
    by_cases hlast : r.getLast? = some '\n'
    · rw [if_pos hlast] at h
      obtain ⟨hne, hdig, hn⟩ := sentinelDigitsValue_eq_some h
      refine ⟨r.dropLast, hne, hdig, hn, Or.inr ?_⟩
      have hrne : r ≠ [] := by
        intro hh; subst hh; simp at hlast
      have hgl : r.getLast hrne = '\n' := by
        have := List.getLast?_eq_getLast r hrne
        rw [this] at hlast
        exact Option.some.inj hlast
      rw [hl]
      congr 1
      rw [← hgl]
      exact (List.dropLast_append_getLast hrne).symm
    · rw [if_neg hlast] at h
      obtain ⟨hne, hdig, hn⟩ := sentinelDigitsValue_eq_some h
      exact ⟨r, hne, hdig, hn, Or.inl hl⟩

theorem scanStep_eq_specStep {l : List Char}
    (h : containsSeq sentinelHeader l = true → sentinelFormValue l ≠ none)
    (cur : Option Int) : SourceCode.scanStep cur l = specStep cur l := by
  cases hc : containsSeq sentinelHeader l with
  | false =>
    have h1 : SourceCode.scanStep cur l = cur := by
      rw [SourceCode.scanStep, if_neg (by rw [hc]; simp)]
    have h2 : specStep cur l = cur := by
      rw [specStep]
      cases hv : sentinelFormValue l with
      | none => rfl
      | some n =>
        obtain ⟨ds, _, _, _, hl | hl⟩ := sentinelFormValue_eq_some hv <;>
          (rw [hl, containsSeq_of_isPrefOf (isPrefOf_append_self sentinelHeader _)] at hc;
            exact absurd hc (by simp))
    rw [h1, h2]
  | true =>
    cases hv : sentinelFormValue l with
    | none => exact absurd hv (h hc)
    | some n =>
      obtain ⟨ds, hne, hdig, hn, hl⟩ := sentinelFormValue_eq_some hv
      have hstep : SourceCode.scanStep cur l = some n := by
        rcases hl with rfl | rfl
        · rw [scanStep_sentinel hne hdig (Or.inl rfl) cur, hn]
        · rw [scanStep_sentinel hne hdig (Or.inr rfl) cur, hn]
      rw [hstep, specStep, hv]

theorem foldl_scanStep_eq_specStep {lines : List (List Char)}
    (h : ∀ l ∈ lines, containsSeq sentinelHeader l = true → sentinelFormValue l ≠ none) :
    ∀ cur, lines.foldl SourceCode.scanStep cur = lines.foldl specStep cur := by
  induction lines with
  | nil => intro cur; rfl
  | cons l ls ih =>
    intro cur
    rw [List.foldl_cons, List.foldl_cons,
      scanStep_eq_specStep (h l (List.mem_cons_self l ls)) cur]
    exact ih (fun x hx => h x (List.mem_cons_of_mem l hx)) _

/-! ### Lemmas: document-level assembly -/

theorem splitLinesL_chunk_shape {cs : List Char} :
    ∀ l ∈ splitLinesL cs, (∃ t, l = t ++ ['\n'] ∧ '\n' ∉ t) ∨ ('\n' ∉ l ∧ l ≠ []) :=
  splitAux_chunk_shape (by simp)

theorem sum_count_processLineL (rules : List Rule) (L : List (List Char)) :
    (L.map (fun l => (processLineL rules l).count '\n')).sum
      = (L.map (fun l => l.count '\n')).sum + (L.map (injectedNL rules)).sum := by
  induction L with
  | nil => rfl
  | cons l ls ih =>
    simp only [List.map_cons, List.sum_cons]
    rw [count_processLineL, ih]
    omega

theorem count_compileOutput (src : String) (rules : List Rule) :
    (compileOutput src rules).data.count '\n'
      = src.data.count '\n' + ((splitLinesL src.data).map (injectedNL rules)).sum := by
  have h1 : (compileOutput src rules).data
      = joinL ((splitLinesL src.data).map (processLineL rules)) := rfl
  rw [h1, count_joinL, List.map_map]
  have h2 : ((splitLinesL src.data).map (fun l => l.count '\n')).sum
      = src.data.count '\n' := by
    conv_rhs => rw [← joinL_splitLinesL src.data]
    rw [count_joinL]
  rw [← h2]
  simpa only [Function.comp] using sum_count_processLineL rules (splitLinesL src.data)

theorem hasTrail_compileOutput (src : String) (rules : List Rule) :
    hasTrail (compileOutput src rules).data = hasTrail src.data := by
  have h1 : (compileOutput src rules).data
      = joinL ((splitLinesL src.data).map (processLineL rules)) := rfl
  rcases List.eq_nil_or_concat (splitLinesL src.data) with hnil | ⟨L, l, hL⟩
  · have hsrc : src.data = [] := by
      have h := joinL_splitLinesL src.data
      rw [hnil] at h
      exact h.symm
    rw [h1, hnil, hsrc]
    rfl
  · rw [List.concat_eq_append] at hL
    have hshape := @splitLinesL_chunk_shape src.data l (by rw [hL]; simp)
    have hsrc : src.data = joinL L ++ l := by
      conv_lhs => rw [← joinL_splitLinesL src.data]
      rw [hL, joinL_append]
      simp [joinL]
    rw [h1, hL, List.map_append, joinL_append]
    have hmapl : joinL ([l].map (processLineL rules)) = processLineL rules l := by
      simp [joinL]
    rw [hmapl, hsrc]
    rcases hshape with ⟨t, hlt, _⟩ | ⟨hnl, hlne⟩
    · obtain ⟨w, hw⟩ := processLineL_newline_terminated ⟨t, hlt⟩ rules
      rw [hw, hlt, hasTrail_append _ (by simp : w ++ ['\n'] ≠ []),
        hasTrail_append _ (by simp : t ++ ['\n'] ≠ []),
        hasTrail_concat_newline, hasTrail_concat_newline]
    · rw [processLineL_of_no_newline hnl rules,
        hasTrail_append _ hlne, hasTrail_append _ hlne]

theorem lineCount_compileOutput (src : String) (rules : List Rule) :
    lineCount (compileOutput src rules)
      = lineCount src + ((splitLinesL src.data).map (injectedNL rules)).sum := by
  rw [lineCount_eq, lineCount_eq, count_compileOutput, hasTrail_compileOutput]
  cases hasTrail src.data
  · simp
  · simp
    omega

/-! ### Lemmas: same-layer rule pairs (marker re-matching) -/

theorem data_marker_rule (L : Int) (c : String) :
    (layerComment ⟨L, c⟩).data = markerL L := rfl

theorem applyRuleL_marker_head {l : List Char} {r : Rule} (t : List Char)
    (hl : l = (layerComment r).data ++ t) :
    applyRuleL l r = (layerComment r).data ++ r.code.data ++ ['\n'] ++ t := by
  rw [applyRuleL, hl, replaceOnceL_of_isPrefOf _ (isPrefOf_append_self _ _),
    List.drop_left, data_newSegment]

theorem processLineL_same_layer_pair (L : Int) (c1 c2 : String) :
    processLineL [⟨L, c1⟩, ⟨L, c2⟩] (markerL L)
      = markerL L ++ c2.data ++ ['\n'] ++ c1.data ++ ['\n'] := by
  show applyRuleL (applyRuleL (markerL L) ⟨L, c1⟩) ⟨L, c2⟩ = _
  have h1 : applyRuleL (markerL L) ⟨L, c1⟩ = markerL L ++ (c1.data ++ ['\n']) := by
    rw [applyRuleL_marker_head [] (by rw [data_marker_rule, List.append_nil])]
    simp [data_marker_rule, List.append_assoc]
  rw [h1,
    applyRuleL_marker_head (c1.data ++ ['\n']) (by rw [data_marker_rule])]
  simp [data_marker_rule, List.append_assoc]

theorem processLineL_stable_pair {l : List Char} (L : Int) (c1 c2 : String)
    (h : containsSeq (markerL L) l = false) :
    processLineL [⟨L, c1⟩, ⟨L, c2⟩] l = l := by
  show applyRuleL (applyRuleL l ⟨L, c1⟩) ⟨L, c2⟩ = l
  rw [@applyRuleL_of_not_contains l ⟨L, c1⟩ (by rw [data_marker_rule]; exact h),
    @applyRuleL_of_not_contains l ⟨L, c2⟩ (by rw [data_marker_rule]; exact h)]

theorem map_processLineL_stable {L : Int} {c1 c2 : String} {lines : List (List Char)}
    (h : ∀ l ∈ lines, containsSeq (markerL L) l = false) :
    lines.map (processLineL [⟨L, c1⟩, ⟨L, c2⟩]) = lines := by
  induction lines with
  | nil => rfl
  | cons l ls ih =>
    rw [List.map_cons, processLineL_stable_pair L c1 c2 (h l (List.mem_cons_self l ls)),
      ih (fun x hx => h x (List.mem_cons_of_mem l hx))]

/-! ## Claims -/

/-- C1, counterexample: two rules on layer 3 and a source with exactly one
`;LAYER:3` marker line.  The claim says the output holds the injected
blocks in rule-list order (`A` then `B`); the code produces them in
reverse rule-list order (`B` then `A`), because each `str.replace`
re-inserts the marker at the front of the replacement, and the next rule's
replacement matches that leading marker again. -/
theorem C1_counterexample :
    compileOutput ";LAYER_COUNT:4\n;LAYER:3\nG1\n" [⟨3, "A"⟩, ⟨3, "B"⟩]
        = ";LAYER_COUNT:4\n;LAYER:3\nB\nA\nG1\n"
    ∧ compileOutput ";LAYER_COUNT:4\n;LAYER:3\nG1\n" [⟨3, "A"⟩, ⟨3, "B"⟩]
        ≠ ";LAYER_COUNT:4\n;LAYER:3\nA\nB\nG1\n" := by
  refine ⟨rfl, ?_⟩
  decide

/-- C1, amended: if two rules target the same layer and exactly one source
line is that layer's marker line (no other line containing the marker),
the output contains both rules' injected code blocks immediately after
that marker line, concatenated in REVERSE rule-list order: the second
rule's code comes first, then the first rule's code. -/
theorem C1_same_layer_pair (L : Int) (c1 c2 : String) (pre post : List (List Char))
    (h : ∀ l ∈ pre ++ post, containsSeq (markerL L) l = false) :
    (pre ++ [markerL L] ++ post).map (processLineL [⟨L, c1⟩, ⟨L, c2⟩])
      = pre ++ [markerL L ++ c2.data ++ ['\n'] ++ c1.data ++ ['\n']] ++ post := by
  have hm : ([markerL L]).map (processLineL [⟨L, c1⟩, ⟨L, c2⟩])
      = [markerL L ++ c2.data ++ ['\n'] ++ c1.data ++ ['\n']] := by
    rw [List.map_cons, List.map_nil, processLineL_same_layer_pair]
  rw [List.map_append, List.map_append, hm,
    map_processLineL_stable (fun l hl => h l (List.mem_append_left _ hl)),
    map_processLineL_stable (fun l hl => h l (List.mem_append_right _ hl))]

/-- Witness for C1: the amended statement evaluated on a concrete
source. -/
theorem C1_same_layer_pair_witness :
    (∀ l ∈ [(";LAYER_COUNT:4\n").data] ++ [("G1\n").data],
        containsSeq (markerL 3) l = false)
    ∧ ([(";LAYER_COUNT:4\n").data] ++ [markerL 3] ++ [("G1\n").data]).map
          (processLineL [⟨3, "A"⟩, ⟨3, "B"⟩])
        = [(";LAYER_COUNT:4\n").data]
            ++ [markerL 3 ++ ("B").data ++ ['\n'] ++ ("A").data ++ ['\n']]
            ++ [("G1\n").data] :=
  ⟨by decide, C1_same_layer_pair 3 "A" "B" _ _ (by decide)⟩

/-- The file system for the C2 scenario: one source file. -/
def c2fs : FS := fun n =>
  if n = "model.gcode" then some ";LAYER_COUNT:2\n;LAYER:0\nA\n;LAYER:1\nB\n"
  else none

/-- The rules loader for the C2 scenario: one rules file for id `p`. -/
def c2rules : String → Option (List Rule) := fun n =>
  if n = "rules[p].yml" then some [⟨1, "PAUSE"⟩] else none

/-- C2: for the concrete source and the single rule `{layer: 1, code:
"PAUSE"}`, compile succeeds and the output document is exactly the source
with `PAUSE` inserted after the `;LAYER:1` line. -/
theorem C2_end_to_end :
    (GCodePP.compile c2fs c2rules "model.gcode" none "p").outcome = Except.ok ()
    ∧ (GCodePP.compile c2fs c2rules "model.gcode" none "p").fs "model[p].gcode"
        = some ";LAYER_COUNT:2\n;LAYER:0\nA\n;LAYER:1\nPAUSE\nB\n" :=
  ⟨rfl, rfl⟩

/-- C3: for a source with a single `;LAYER_COUNT:<N>` marker and rules all
below `N`, the output's newline count and line count equal the source's
plus the injected line count summed over all rule/marker matches; every
source line maps to exactly one output line group, none dropped or
merged. -/
theorem C3_line_count (src : String) (rules : List Rule) (N : Int)
    (_h1 : (splitLinesL src.data).countP (fun l => containsSeq sentinelHeader l) = 1)
    (_h2 : SourceCode.countLayers src = some N)
    (_h3 : ∀ r ∈ rules, r.layer < N) :
    (compileOutput src rules).data.count '\n'
        = src.data.count '\n' + ((splitLinesL src.data).map (injectedNL rules)).sum
    ∧ lineCount (compileOutput src rules)
        = lineCount src + ((splitLinesL src.data).map (injectedNL rules)).sum :=
  ⟨count_compileOutput src rules, lineCount_compileOutput src rules⟩

/-- Witness for C3: the statement evaluated on the concrete C2 source. -/
theorem C3_line_count_witness :
    ((splitLinesL (";LAYER_COUNT:2\n;LAYER:0\nA\n;LAYER:1\nB\n" : String).data).countP
          (fun l => containsSeq sentinelHeader l) = 1
      ∧ SourceCode.countLayers ";LAYER_COUNT:2\n;LAYER:0\nA\n;LAYER:1\nB\n" = some 2
      ∧ ∀ r ∈ [(⟨1, "PAUSE"⟩ : Rule)], r.layer < 2)
    ∧ ((compileOutput ";LAYER_COUNT:2\n;LAYER:0\nA\n;LAYER:1\nB\n"
            [⟨1, "PAUSE"⟩]).data.count '\n'
          = (";LAYER_COUNT:2\n;LAYER:0\nA\n;LAYER:1\nB\n" : String).data.count '\n'
            + ((splitLinesL (";LAYER_COUNT:2\n;LAYER:0\nA\n;LAYER:1\nB\n" : String).data).map
                (injectedNL [⟨1, "PAUSE"⟩])).sum
      ∧ lineCount (compileOutput ";LAYER_COUNT:2\n;LAYER:0\nA\n;LAYER:1\nB\n" [⟨1, "PAUSE"⟩])
          = lineCount ";LAYER_COUNT:2\n;LAYER:0\nA\n;LAYER:1\nB\n"
            + ((splitLinesL (";LAYER_COUNT:2\n;LAYER:0\nA\n;LAYER:1\nB\n" : String).data).map
                (injectedNL [⟨1, "PAUSE"⟩])).sum) :=
  ⟨⟨by decide, by decide, by decide⟩,
   C3_line_count _ _ 2 (by decide) (by decide) (by decide)⟩

/-- C4: as long as the derived output filename differs from the source
filename, a compile run leaves the source entry of the file system
untouched, and running compile a second time on the resulting file system
yields the same outcome and a byte-identical output file. -/
theorem C4_idempotent (fs : FS) (rulesOf : String → Option (List Rule))
    (cf : String) (ob : Option String) (ruleId : String)
    (h : outputName cf ob ruleId ≠ cf) :
    (GCodePP.compile fs rulesOf cf ob ruleId).fs cf = fs cf
    ∧ (GCodePP.compile ((GCodePP.compile fs rulesOf cf ob ruleId).fs)
          rulesOf cf ob ruleId).fs cf = fs cf
    ∧ (GCodePP.compile ((GCodePP.compile fs rulesOf cf ob ruleId).fs)
          rulesOf cf ob ruleId).outcome
        = (GCodePP.compile fs rulesOf cf ob ruleId).outcome
    ∧ (GCodePP.compile ((GCodePP.compile fs rulesOf cf ob ruleId).fs)
          rulesOf cf ob ruleId).fs (outputName cf ob ruleId)
        = (GCodePP.compile fs rulesOf cf ob ruleId).fs (outputName cf ob ruleId) := by
  have h' : ¬(cf = outputName cf ob ruleId) := fun hh => h hh.symm
  cases hfs : fs cf with
  | none => simp [GCodePP.compile, hfs]
  | some src =>
    cases hl : rulesOf (ruleFilename ruleId) with
    | none => simp [GCodePP.compile, compileBody, loadRules, hfs, hl]
    | some rules =>
      cases hv : validateRules rules (SourceCode.countLayers src) with
      | error e => simp [GCodePP.compile, compileBody, loadRules, hfs, hl, hv]
      | ok u => simp [GCodePP.compile, compileBody, loadRules, FS.update, hfs, hl, hv, h']

/-- The file system for the C4 witness. -/
def c4fs : FS := fun n =>
  if n = "m.gcode" then some ";LAYER_COUNT:2\n;LAYER:1\nX\n" else none

/-- The rules loader for the C4 witness. -/
def c4rules : String → Option (List Rule) := fun n =>
  if n = "rules[q].yml" then some [⟨1, "P"⟩] else none

/-- Witness for C4 at a concrete successful compile. -/
theorem C4_idempotent_witness :
    (GCodePP.compile c4fs c4rules "m.gcode" none "q").fs "m.gcode" = c4fs "m.gcode"
    ∧ (GCodePP.compile ((GCodePP.compile c4fs c4rules "m.gcode" none "q").fs)
          c4rules "m.gcode" none "q").fs "m.gcode" = c4fs "m.gcode"
    ∧ (GCodePP.compile ((GCodePP.compile c4fs c4rules "m.gcode" none "q").fs)
          c4rules "m.gcode" none "q").outcome
        = (GCodePP.compile c4fs c4rules "m.gcode" none "q").outcome
    ∧ (GCodePP.compile ((GCodePP.compile c4fs c4rules "m.gcode" none "q").fs)
          c4rules "m.gcode" none "q").fs (outputName "m.gcode" none "q")
        = (GCodePP.compile c4fs c4rules "m.gcode" none "q").fs
            (outputName "m.gcode" none "q") :=
  C4_idempotent c4fs c4rules "m.gcode" none "q" (by decide)

/-- C5: with a declared layer count `N`, a rule with `layer = N` fails
validation with the out-of-range condition naming `N`, while a rule with
`layer = N - 1` passes (the bound is strict). -/
theorem C5_boundary (N : Int) (c1 c2 : String) :
    validateRules [⟨N, c1⟩] (some N)
        = Except.error (Err.layerOutOfRange
            ("The layer number [" ++ pyIntStr N ++ "] cannot be more than count layers"))
    ∧ validateRules [⟨N - 1, c2⟩] (some N) = Except.ok () := by
  constructor
  · rw [validateRules, if_pos (le_refl N)]
    rfl
  · rw [validateRules, if_neg (show ¬((N - 1 : Int) ≥ N) by omega)]
    rfl

/-- C6: when the rules file for identifier `X` is missing but the source
exists, compile fails with the rules-not-found condition whose message
names the derived filename `rules[X].yml`; that condition is a different
constructor from the source-file not-found error. -/
theorem C6_rules_not_found (fs : FS) (rulesOf : String → Option (List Rule))
    (cf : String) (ob : Option String) (X : String) (src : String)
    (hsrc : fs cf = some src)
    (hr : rulesOf ("rules[" ++ X ++ "].yml") = none) :
    (GCodePP.compile fs rulesOf cf ob X).outcome
        = Except.error (Err.rulesNotFound
            ("Rules with a filename \"" ++ ("rules[" ++ X ++ "].yml") ++ "\" cannot be find"))
    ∧ ∀ msg, Err.rulesNotFound msg ≠ Err.fileNotFound := by
  constructor
  · simp [GCodePP.compile, compileBody, loadRules, ruleFilename, rulesNotFoundMsg,
      hsrc, hr]
  · exact fun msg hmsg => Err.noConfusion hmsg

/-- The file system for the C6 witness. -/
def c6fs : FS := fun n => if n = "a.gcode" then some "x\n" else none

/-- The rules loader for the C6 witness: no rules files at all. -/
def c6rules : String → Option (List Rule) := fun _ => none

/-- Witness for C6. -/
theorem C6_rules_not_found_witness :
    c6fs "a.gcode" = some "x\n"
    ∧ c6rules ("rules[" ++ "X" ++ "].yml") = none
    ∧ ((GCodePP.compile c6fs c6rules "a.gcode" none "X").outcome
          = Except.error (Err.rulesNotFound
              ("Rules with a filename \"" ++ ("rules[" ++ "X" ++ "].yml") ++ "\" cannot be find"))
        ∧ ∀ msg, Err.rulesNotFound msg ≠ Err.fileNotFound) :=
  ⟨rfl, rfl, C6_rules_not_found c6fs c6rules "a.gcode" none "X" "x\n" rfl rfl⟩

/-- C7: on every error outcome of compile, the file system is unchanged
(in particular no output file was created for that rule identifier) and no
source stream remains open when the error propagates. -/
theorem C7_error_paths (fs : FS) (rulesOf : String → Option (List Rule))
    (cf : String) (ob : Option String) (ruleId : String) (e : Err)
    (h : (GCodePP.compile fs rulesOf cf ob ruleId).outcome = Except.error e) :
    (GCodePP.compile fs rulesOf cf ob ruleId).fs = fs
    ∧ (GCodePP.compile fs rulesOf cf ob ruleId).sourceOpenAtEnd = false := by
  cases hfs : fs cf with
  | none => constructor <;> simp [GCodePP.compile, hfs]
  | some src =>
    cases hb : compileBody fs rulesOf src (outputName cf ob ruleId) ruleId with
    | error e2 => constructor <;> simp [GCodePP.compile, hfs, hb]
    | ok fs2 => simp [GCodePP.compile, hfs, hb] at h

/-- The file system for the C7 witness: no files, so compile fails on the
source open. -/
def c7fs : FS := fun _ => none

/-- The rules loader for the C7 witness. -/
def c7rules : String → Option (List Rule) := fun _ => none

/-- Witness for C7. -/
theorem C7_error_paths_witness :
    (GCodePP.compile c7fs c7rules "a.gcode" none "p").outcome
        = Except.error Err.fileNotFound
    ∧ ((GCodePP.compile c7fs c7rules "a.gcode" none "p").fs = c7fs
        ∧ (GCodePP.compile c7fs c7rules "a.gcode" none "p").sourceOpenAtEnd = false) :=
  ⟨rfl, C7_error_paths c7fs c7rules "a.gcode" none "p" Err.fileNotFound rfl⟩

/-- C8, counterexample: in the source
`";LAYER_COUNT:3\nx;LAYER_COUNT:9\n"` the only line matching the
`;LAYER_COUNT:<N>` sentinel form is the first one, with `N = 3`, so the
claim demands a declared count of 3; the code's scan is also updated by
the second, malformed line (which merely CONTAINS the sentinel text) and
ends with 9. -/
theorem C8_counterexample :
    SourceCode.countLayers ";LAYER_COUNT:3\nx;LAYER_COUNT:9\n" = some 9
    ∧ specDeclaredCount ";LAYER_COUNT:3\nx;LAYER_COUNT:9\n" = some 3
    ∧ SourceCode.countLayers ";LAYER_COUNT:3\nx;LAYER_COUNT:9\n"
        ≠ specDeclaredCount ";LAYER_COUNT:3\nx;LAYER_COUNT:9\n" := by
  refine ⟨rfl, rfl, ?_⟩
  decide

/-- C8, amended: restricted to sources in which every line containing the
text `;LAYER_COUNT:` is exactly a sentinel-form line, the scanned count
equals the value of the last sentinel-form line, and remains unset when no
line matches. -/
theorem C8_last_sentinel (src : String)
    (h : ∀ l ∈ splitLinesL src.data,
        containsSeq sentinelHeader l = true → sentinelFormValue l ≠ none) :
    SourceCode.countLayers src = specDeclaredCount src :=
  foldl_scanStep_eq_specStep h none

/-- Witness for C8 on a well-formed source. -/
theorem C8_last_sentinel_witness :
    (∀ l ∈ splitLinesL (";LAYER_COUNT:7\nG1\n" : String).data,
        containsSeq sentinelHeader l = true → sentinelFormValue l ≠ none)
    ∧ SourceCode.countLayers ";LAYER_COUNT:7\nG1\n"
        = specDeclaredCount ";LAYER_COUNT:7\nG1\n" :=
  ⟨by decide, C8_last_sentinel _ (by decide)⟩

/-- C9: the watcher's very first observation only records the baseline and
triggers nothing; a strictly larger observed time triggers the callback
once per known identifier, in list order, and advances the baseline; an
observation not exceeding the baseline triggers nothing and keeps the
baseline.  Identifier registration keeps first-seen order and never
duplicates. -/
theorem C9_watcher :
    (∀ (m : Nat) (ids : List String), Watcher.step none m ids = (some m, []))
    ∧ (∀ (b m : Nat) (ids : List String), b < m →
        Watcher.step (some b) m ids = (some m, ids))
    ∧ (∀ (b m : Nat) (ids : List String), m ≤ b →
        Watcher.step (some b) m ids = (some b, []))
    ∧ (∀ (ids : List String) (x : String), x ∈ ids → registerRule ids x = ids)
    ∧ (∀ (ids : List String) (x : String), x ∉ ids →
        registerRule ids x = ids ++ [x]) := by
  refine ⟨fun m ids => rfl, fun b m ids hb => ?_, fun b m ids hb => ?_,
    fun ids x hx => ?_, fun ids x hx => ?_⟩
  · rw [Watcher.step, if_pos hb]
  · rw [Watcher.step, if_neg (by omega)]
  · rw [registerRule, if_pos hx]
  · rw [registerRule, if_neg hx]

/-- Witness for C9. -/
theorem C9_watcher_witness :
    Watcher.step (some 3) 5 ["a", "b"] = (some 5, ["a", "b"])
    ∧ Watcher.step (some 5) 5 ["a", "b"] = (some 5, [])
    ∧ registerRule ["a"] "a" = ["a"]
    ∧ registerRule ["a"] "b" = ["a", "b"] :=
  ⟨C9_watcher.2.1 3 5 ["a", "b"] (by decide),
   C9_watcher.2.2.1 5 5 ["a", "b"] (by decide),
   C9_watcher.2.2.2.1 ["a"] "a" (by decide),
   C9_watcher.2.2.2.2 ["a"] "b" (by decide)⟩

/-- C10: the stop flag is read at the top of every iteration; the first
iteration that observes it set exits immediately, invoking no callback,
so the run over a schedule whose flag turns on produces exactly the
callbacks of the prefix before the stop. -/
theorem C10_stop (ids : List String) (st : Option Nat) (pre : List (Bool × Nat))
    (m : Nat) (rest : List (Bool × Nat)) (h : ∀ p ∈ pre, p.1 = false) :
    Watcher.run ids st (pre ++ (true, m) :: rest) = Watcher.run ids st pre
    ∧ Watcher.run ids st ((true, m) :: rest) = [] := by
  refine ⟨?_, rfl⟩
  induction pre generalizing st with
  | nil => rfl
  | cons p ps ih =>
    obtain ⟨pb, pm⟩ := p
    have hp : pb = false := h (pb, pm) (List.mem_cons_self _ _)
    subst hp
    simp only [List.cons_append, Watcher.run, if_neg (Bool.false_ne_true)]
    exact congrArg (fun t => (Watcher.step st pm ids).2 ++ t)
      (ih (Watcher.step st pm ids).1 (fun q hq => h q (List.mem_cons_of_mem _ hq)))

/-- Witness for C10. -/
theorem C10_stop_witness :
    (∀ p ∈ [((false, 1) : Bool × Nat), (false, 2)], p.1 = false)
    ∧ (Watcher.run ["a"] none ([(false, 1), (false, 2)] ++ (true, 3) :: [(false, 4)])
          = Watcher.run ["a"] none [(false, 1), (false, 2)]
      ∧ Watcher.run ["a"] none ((true, 3) :: [(false, 4)]) = []) :=
  ⟨by decide, C10_stop ["a"] none [(false, 1), (false, 2)] 3 [(false, 4)] (by decide)⟩

end GPP
